import Mathlib

/-!
Shallow embedding of `MRS v2.5.py`, a mean-reversion backtesting script.

Numbers are modelled by `ℚ`.  Columns that the script obtains as real
square roots (the exponentially weighted standard deviation `std` from
line 59, and the 10-day rolling volatility from line 68) enter the
embedded pipeline as explicit input lists: their values are irrational in
general, but every property proved below is parametric in those values,
so it holds in particular for the values the script computes.  All other
arithmetic of the script (rolling EWMA mean, z-score guard, signal
discretization, forward fill, position sizing, lag, clipping, trading
costs, compounding, trade-log reconstruction) is exact rational
arithmetic and is embedded directly.
-/

namespace MRS

/-- Global `initial_capital` (line 14). -/
def initial_capital : ℚ := 10000

/-- Global `cost_per_trade` (line 15). -/
def cost_per_trade : ℚ := 1/1000

/-- Global `stop_loss` (line 16). -/
def stop_loss : ℚ := -3/100

/-- Global `take_profit` (line 17). -/
def take_profit : ℚ := 5/100

/-- `np.sign` on rationals. -/
def sign (x : ℚ) : ℚ := if 0 < x then 1 else if x < 0 then -1 else 0

/-- `np.clip(x, lo, hi)`: first the lower bound, then the upper bound. -/
def clip (x lo hi : ℚ) : ℚ := min (max x lo) hi

/-- Smoothing factor of `ewm(span=window, adjust=False)`: `α = 2/(window+1)`. -/
def ewmAlpha (window : ℤ) : ℚ := 2 / ((window : ℚ) + 1)

/-- `Close.ewm(span=window, adjust=False).mean()` (line 58): the recursive
exponentially weighted mean, seeded from the first observation. -/
def ewmMean (closes : List ℚ) (window : ℤ) : List ℚ :=
  match closes with
  | [] => []
  | x :: xs => List.scanl (fun m c => (1 - ewmAlpha window) * m + ewmAlpha window * c) x xs

/-- The guarded z-score of one row (lines 62-64):
`np.where(std > 0, (Close - mean)/std, 0)`. -/
def zscoreOf (c m s : ℚ) : ℚ := if 0 < s then (c - m) / s else 0

/-- The `z_score` column: the row-wise guarded z-score over the `Close`,
`mean` and `std` columns. -/
def zscores (closes mean std : List ℚ) : List ℚ :=
  List.zipWith₃ zscoreOf closes mean std

/-- Pandas `Series.quantile(0.9)` (linear interpolation) of a list of
already non-NaN values; returns `none` for an empty list (pandas: NaN). -/
def quantile09 (xs : List ℚ) : Option ℚ :=
  match xs with
  | [] => none
  | _ =>
    let s := xs.insertionSort (· ≤ ·)
    let n := s.length
    let h : ℚ := 9 * ((n : ℚ) - 1) / 10
    let j : ℕ := h.floor.toNat
    let γ : ℚ := h - (j : ℚ)
    some (s.getD j 0 + γ * (s.getD (j + 1) 0 - s.getD j 0))

/-- The volatility filter (lines 67-70): a `volatility` column (`none` on
the first rows where the 10-day rolling std is NaN), its 0.9 quantile over
the whole series, and the zeroing of `z_score` on rows whose volatility
exceeds the threshold.  A NaN volatility never exceeds the threshold
(`NaN > t` is `False` in pandas). -/
def applyVolFilter (vol : List (Option ℚ)) (z : List ℚ) : List ℚ :=
  match quantile09 (vol.filterMap id) with
  | none => z
  | some th => List.zipWith (fun v zv => match v with
      | none => zv
      | some vv => if th < vv then 0 else zv) vol z

/-- The `signal` column of one row (lines 73-76), written as the three
sequential `.loc` column writes of the script: start from `0`, write `1`
where `z < -z_entry`, write `-1` where `z > z_entry`, write `0` where
`|z| < z_exit`. -/
def signalOf (z_entry z_exit z : ℚ) : ℚ :=
  let s1 : ℚ := if z < -z_entry then 1 else 0
  let s2 : ℚ := if z_entry < z then -1 else s1
  if |z| < z_exit then 0 else s2

/-- The `signal` column over the `z_score` column. -/
def signals (z_entry z_exit : ℚ) (z : List ℚ) : List ℚ :=
  z.map (signalOf z_entry z_exit)

/-- `signal.replace(0, method='ffill').fillna(0)` (line 79): every zero
entry is replaced by the closest preceding non-zero entry, and entries
with no preceding non-zero entry become `0` (the accumulator seed). -/
def ffillNonzero : List ℚ → ℚ → List ℚ
  | [], _ => []
  | s :: rest, acc =>
    let p := if s = 0 then acc else s
    p :: ffillNonzero rest p

/-- The `position` column (line 79). -/
def positionsOf (sigs : List ℚ) : List ℚ := ffillNonzero sigs 0

/-- Dynamic position sizing (lines 82-84):
`position_size = np.clip(-z_score/z_entry, -1, 1)`;
`position = np.sign(position) * abs(position_size)`. -/
def dynamicPositions (z_entry : ℚ) (z pos : List ℚ) : List ℚ :=
  List.zipWith (fun zv pv => sign pv * |clip (-zv / z_entry) (-1) 1|) z pos

/-- The `z_score` column as the strategy function computes it (lines
58-70): the guarded z-score, with the volatility filter applied when
`filter_vol` is set. -/
def zPipeline (closes mean std : List ℚ) (vol : List (Option ℚ)) (filter_vol : Bool) :
    List ℚ :=
  if filter_vol then applyVolFilter vol (zscores closes mean std)
  else zscores closes mean std

/-- The discrete `position` column computed from the data columns
(lines 58-79). -/
def positionsPipeline (closes mean std : List ℚ) (vol : List (Option ℚ))
    (filter_vol : Bool) (z_entry z_exit : ℚ) : List ℚ :=
  positionsOf (signals z_entry z_exit (zPipeline closes mean std vol filter_vol))

/-- `position.diff().fillna(0)` then `abs` (line 94): the first row's
difference is NaN and is filled with `0`; afterwards
`position_change[t] = |position[t] - position[t-1]|`. -/
def positionChange (pos : List ℚ) : List ℚ :=
  match pos with
  | [] => []
  | _ :: _ => 0 :: List.zipWith (fun a b => |b - a|) pos (pos.drop 1)

/-- Net strategy returns (lines 87-96) with the lagged position series
given explicitly: `strategy_raw = lag * returns`, clipped into
`[stop_loss, take_profit]`, minus `cost_per_trade * position_change`. -/
def simulateWithLag (rets lag pos : List ℚ) : List ℚ :=
  let raw := List.zipWith (· * ·) lag rets
  let clipped := raw.map (fun r => clip r stop_loss take_profit)
  let cost := (positionChange pos).map (fun c => cost_per_trade * c)
  List.zipWith (· - ·) clipped cost

/-- The `strategy_net` column (lines 87-96): the lag column is
`position.shift(1).fillna(0)`, i.e. a `0` prepended to the position
column (the trailing element is discarded by column alignment). -/
def netReturns (rets pos : List ℚ) : List ℚ :=
  simulateWithLag rets (0 :: pos) pos

/-- Running product of a list, starting from an accumulator. -/
def cumprodFrom (acc : ℚ) : List ℚ → List ℚ
  | [] => []
  | x :: xs => (acc * x) :: cumprodFrom (acc * x) xs

/-- Pandas `cumprod`. -/
def cumprod (l : List ℚ) : List ℚ := cumprodFrom 1 l

/-- Equity from an explicit net-return column (line 99):
`initial_capital * (1 + net).cumprod()`. -/
def equityOfNet (net : List ℚ) : List ℚ :=
  (cumprod (net.map (fun r => 1 + r))).map (fun e => initial_capital * e)

/-- The `equity_curve` column for given lag/position columns. -/
def equityWithLag (rets lag pos : List ℚ) : List ℚ :=
  equityOfNet (simulateWithLag rets lag pos)

/-- The `equity_curve` column (line 99). -/
def equityCurve (rets pos : List ℚ) : List ℚ :=
  equityOfNet (netReturns rets pos)

/-- The `buy_hold_curve` column (line 102):
`initial_capital * (1 + returns).cumprod()` — raw returns, with no
clipping and no trading cost. -/
def buyHoldCurve (rets : List ℚ) : List ℚ :=
  (cumprod (rets.map (fun r => 1 + r))).map (fun e => initial_capital * e)

/-- The `ewm(span=window, ...)` constructor check of pandas: it raises
`ValueError: span must satisfy: span >= 1` when the span is smaller
than 1 (the script passes the integer `window`), and this is the only
exception the strategy function can raise — the body itself (lines
56-136) performs no parameter validation. -/
def ewmChecked (closes : List ℚ) (span : ℤ) : Except String (List ℚ) :=
  if span < 1 then Except.error "span must satisfy: span >= 1"
  else Except.ok (ewmMean closes span)

/-- `backtest_mean_reversion` (lines 56-136), embedded up to the equity
curve.  `std` and `vol` are the exponentially weighted standard deviation
column and the 10-day rolling volatility column (square roots computed by
pandas; see the file comment). -/
def backtest_mean_reversion (closes rets std : List ℚ) (vol : List (Option ℚ))
    (window : ℤ) (z_entry z_exit : ℚ) (dynamic_position filter_vol : Bool) :
    Except String (List ℚ) := do
  let m ← ewmChecked closes window
  let z := zPipeline closes m std vol filter_vol
  let pos0 := positionsPipeline closes m std vol filter_vol z_entry z_exit
  let pos := if dynamic_position then dynamicPositions z_entry z pos0 else pos0
  pure (equityCurve rets pos)

/-- The grid-search loop (lines 146-161): each grid point is run inside
`try`/`except`; a failing point is skipped and the sweep continues. -/
def runGrid (closes rets std : List ℚ) (vol : List (Option ℚ))
    (grid : List (ℤ × ℚ × ℚ)) : List ((ℤ × ℚ × ℚ) × List ℚ) :=
  grid.filterMap (fun p =>
    match backtest_mean_reversion closes rets std vol p.1 p.2.1 p.2.2 false true with
    | Except.ok eq => some (p, eq)
    | Except.error _ => none)

/-- Trade side (`position_type` strings `'Long'`/`'Short'`, line 228). -/
inductive Side where
  | long : Side
  | short : Side
deriving DecidableEq, Repr

/-- One row of the trade log (lines 243-251). -/
structure Trade where
  entryDate : ℤ
  exitDate : ℤ
  days : ℤ
  side : Side
  entryPrice : ℚ
  exitPrice : ℚ
  retPct : ℚ
deriving DecidableEq, Repr

/-- The mutable state of the trade-log loop (lines 212-216), plus the
previous row's position (`best_df['position'].iloc[i-1]`, read by the
exit test).  The script initializes `entry_price`/`entry_date`/
`position_type` to `None`; they are only read while `in_position` is
true, at which point they have been assigned, so the embedding seeds them
with arbitrary defaults. -/
structure LogState where
  trades : List Trade
  inPosition : Bool
  entryPrice : ℚ
  entryDate : ℤ
  posType : Side
  prevPos : ℚ
deriving Repr

/-- Initial state of the trade-log loop. -/
def initLogState : LogState :=
  { trades := [], inPosition := false, entryPrice := 0, entryDate := 0,
    posType := Side.long, prevPos := 0 }

/-- The completed `Trade` appended on exit (lines 232-251): P&L is
`(exit-entry)/entry*100` for a long, `(entry-exit)/entry*100` for a
short; `Days` is the calendar-day difference of the dates. -/
def mkTrade (s : LogState) (price : ℚ) (date : ℤ) : Trade :=
  { entryDate := s.entryDate, exitDate := date, days := date - s.entryDate,
    side := s.posType, entryPrice := s.entryPrice, exitPrice := price,
    retPct := (match s.posType with
      | Side.long => (price - s.entryPrice) / s.entryPrice * 100
      | Side.short => (s.entryPrice - price) / s.entryPrice * 100) }

/-- One iteration of the trade-log loop (lines 218-260) on a row
`(position, Close, date)`: enter when flat and the position is non-zero;
exit when in a position and the position is zero or its sign differs from
the previous row's position, appending the completed trade and
immediately re-entering if the new position is non-zero. -/
def logStep (s : LogState) (row : ℚ × ℚ × ℤ) : LogState :=
  if s.inPosition = false ∧ row.1 ≠ 0 then
    { s with inPosition := true, entryPrice := row.2.1, entryDate := row.2.2,
             posType := if 0 < row.1 then Side.long else Side.short, prevPos := row.1 }
  else if s.inPosition = true ∧ (row.1 = 0 ∨ sign row.1 ≠ sign s.prevPos) then
    if row.1 ≠ 0 then
      { trades := s.trades ++ [mkTrade s row.2.1 row.2.2], inPosition := true,
        entryPrice := row.2.1, entryDate := row.2.2,
        posType := if 0 < row.1 then Side.long else Side.short, prevPos := row.1 }
    else
      { s with trades := s.trades ++ [mkTrade s row.2.1 row.2.2], inPosition := false,
               prevPos := row.1 }
  else
    { s with prevPos := row.1 }

/-- Run the trade-log loop over the rows `(position, Close, date)`. -/
def logRun (rows : List (ℚ × ℚ × ℤ)) : LogState :=
  rows.foldl logStep initLogState

/-- The trade ledger (`trades` list after the loop, line 262).  A position
still open at the final row yields no trailing trade. -/
def tradeLog (rows : List (ℚ × ℚ × ℤ)) : List Trade :=
  (logRun rows).trades

/-- Date of a trade-log row. -/
def dateOf (row : ℚ × ℚ × ℤ) : ℤ := row.2.2

/-- Invariant of the trade-log loop relative to a lower bound `lb` on all
upcoming row dates: every recorded trade is a proper interval closed no
later than `lb`, the ledger is chronologically chained, and an open
position was entered no later than `lb` and after every recorded exit. -/
def TradesInv (lb : ℤ) (s : LogState) : Prop :=
  (∀ t ∈ s.trades, t.entryDate < t.exitDate) ∧
  List.Chain' (fun a b => a.exitDate ≤ b.entryDate) s.trades ∧
  (∀ t ∈ s.trades, t.exitDate ≤ lb) ∧
  (s.inPosition = true → s.entryDate ≤ lb ∧ ∀ t ∈ s.trades, t.exitDate ≤ s.entryDate)

/-- Invariant of the trade-log loop: while a position is open, its
recorded side agrees with the sign of the previous row's position. -/
def SideInv (s : LogState) : Prop :=
  s.inPosition = true → (s.posType = Side.long ↔ 0 < s.prevPos)

/-! ## Helper lemmas -/

theorem map_clip_id (l : List ℚ) (h : ∀ r ∈ l, stop_loss ≤ r ∧ r ≤ take_profit) :
    l.map (fun r => clip r stop_loss take_profit) = l := by
  induction l with
  | nil => rfl
  | cons x xs ih =>
    have hx := h x (by simp)
    simp only [List.map_cons, List.cons.injEq]
    exact ⟨by simp [clip, max_eq_left hx.1, min_eq_left hx.2],
           ih (fun r hr => h r (by simp [hr]))⟩

theorem zipWith_absDiff_replicate (m : ℕ) :
    List.zipWith (fun a b => |b - a|) ((1 : ℚ) :: List.replicate m 1)
      (List.replicate m (1 : ℚ)) = List.replicate m 0 := by
  induction m with
  | zero => rfl
  | succ k ih =>
    simp only [List.replicate_succ, List.zipWith_cons_cons, sub_self, abs_zero]
    exact congrArg ((0 : ℚ) :: ·) ih

theorem positionChange_replicate_one (n : ℕ) :
    positionChange (List.replicate n (1 : ℚ)) = List.replicate n 0 := by
  cases n with
  | zero => rfl
  | succ m =>
    simp only [positionChange, List.replicate_succ, List.drop_succ_cons, List.drop_zero]
    exact congrArg ((0 : ℚ) :: ·) (zipWith_absDiff_replicate m)

theorem zipWith_one_mul (rets : List ℚ) (n : ℕ) (h : rets.length ≤ n) :
    List.zipWith (· * ·) (List.replicate n (1 : ℚ)) rets = rets := by
  induction rets generalizing n with
  | nil => simp
  | cons x xs ih =>
    cases n with
    | zero => simp at h
    | succ m =>
      simp only [List.replicate_succ, List.zipWith_cons_cons, one_mul]
      exact congrArg (x :: ·) (ih m (by simpa using h))

theorem zipWith_sub_zero (l : List ℚ) (n : ℕ) (h : l.length ≤ n) :
    List.zipWith (· - ·) l (List.replicate n (0 : ℚ)) = l := by
  induction l generalizing n with
  | nil => simp
  | cons x xs ih =>
    cases n with
    | zero => simp at h
    | succ m =>
      simp only [List.replicate_succ, List.zipWith_cons_cons, sub_zero]
      exact congrArg (x :: ·) (ih m (by simpa using h))

theorem simulateWithLag_ones (rets : List ℚ)
    (h : ∀ r ∈ rets, stop_loss ≤ r ∧ r ≤ take_profit) :
    simulateWithLag rets (List.replicate rets.length 1)
      (List.replicate rets.length 1) = rets := by
  simp only [simulateWithLag, positionChange_replicate_one]
  rw [zipWith_one_mul rets rets.length le_rfl, map_clip_id rets h]
  rw [List.map_replicate, mul_zero]
  exact zipWith_sub_zero rets rets.length le_rfl

/-! ## Claim C1 -/

/-- C1: the claim states that on a day `t` with `|z_score[t]| < z_exit`
the exit rule makes the held accumulator `0`, so `position[t] = 0`.  The
code violates this: with z-scores `[-2, 0]`, `z_entry = 1`,
`z_exit = 1/2`, day `1` lies in the exit zone (`|0| < 1/2`, signal `0`),
yet `replace(0, method='ffill')` refills that zero from the previous
non-zero signal, leaving `position = [1, 1]` — the position never goes
flat, contradicting the code's own comment "hold until exit signal". -/
theorem C1_exit_rule_eval :
    |(0 : ℚ)| < 1/2 ∧
    signals 1 (1/2) [-2, 0] = [1, 0] ∧
    positionsOf (signals 1 (1/2) [-2, 0]) = [1, 1] := by
  refine ⟨by norm_num, ?_, ?_⟩ <;>
    norm_num [signals, signalOf, positionsOf, ffillNonzero]

/-! ## Claim C4 -/

/-- C4 counterexample: the claim states that the buy-and-hold equity
curve equals the simulation pipeline run with `position_lag ≡ 1`.  For
the single return `6%` (above `take_profit = 5%`) buy-and-hold compounds
the raw return (`10600`) while the pipeline clips it (`10500`):
`buy_hold_curve` is computed from raw returns with no clipping and no
trade cost (line 102). -/
theorem C4_counterexample :
    buyHoldCurve [6/100] = [10600] ∧
    equityWithLag [6/100] (List.replicate 1 1) (List.replicate 1 1) = [10500] ∧
    ([10600] : List ℚ) ≠ [10500] := by
  refine ⟨?_, ?_, by norm_num⟩ <;>
    norm_num [buyHoldCurve, equityWithLag, equityOfNet, simulateWithLag, positionChange,
      clip, stop_loss, take_profit, cost_per_trade, cumprod, cumprodFrom, initial_capital,
      List.replicate]

/-- C4 amended: the buy-and-hold equity curve equals the simulation
pipeline run with `position_lag ≡ 1` (and `position ≡ 1`, so the trade
cost vanishes) provided every market return already lies inside
`[stop_loss, take_profit]`, so that the clipping step is the identity;
in general `buy_hold_curve` compounds the raw returns without clipping
or costs. -/
theorem C4_buy_hold_amended (rets : List ℚ)
    (h : ∀ r ∈ rets, stop_loss ≤ r ∧ r ≤ take_profit) :
    buyHoldCurve rets =
      equityWithLag rets (List.replicate rets.length 1) (List.replicate rets.length 1) := by
  unfold equityWithLag
  rw [simulateWithLag_ones rets h]
  rfl

/-- Witness for C4 amended at the concrete returns `[1%, -2%]`. -/
theorem C4_buy_hold_amended_witness :
    (∀ r ∈ ([1/100, -2/100] : List ℚ), stop_loss ≤ r ∧ r ≤ take_profit) ∧
    buyHoldCurve [1/100, -2/100] =
      equityWithLag [1/100, -2/100] (List.replicate 2 1) (List.replicate 2 1) := by
  have h : ∀ r ∈ ([1/100, -2/100] : List ℚ), stop_loss ≤ r ∧ r ≤ take_profit := by
    intro r hr
    simp only [List.mem_cons, List.not_mem_nil, or_false] at hr
    rcases hr with rfl | rfl <;> norm_num [stop_loss, take_profit]
  exact ⟨h, C4_buy_hold_amended [1/100, -2/100] h⟩

/-! ## Claim C6 -/

/-- C6 counterexample: the claim predicts net returns
`[0.019, -0.011]` for the position path `0→1→0` against market returns
`[0.02, -0.01]`.  The code instead charges the entry cost on the day the
position changes while the return accrues with a one-day lag, so no
alignment of that path produces `0.019` next to `-0.011`: the three-day
framing gives `[0, -0.001, -0.011]` and the two-day framing (entering on
the first row, whose `diff()` is NaN and is filled with `0`) gives
`[0, -0.011]`. -/
theorem C6_cost_counterexample :
    netReturns [0, 2/100, -1/100] [0, 1, 0] ≠ [0, 19/1000, -11/1000] ∧
    netReturns [2/100, -1/100] [1, 0] ≠ [19/1000, -11/1000] := by
  constructor <;>
    norm_num [netReturns, simulateWithLag, positionChange, clip, stop_loss, take_profit,
      cost_per_trade]

/-- C6 amended: with `cost_per_trade = 0.001` the position path `0→1→0`
(positions `[0,1,0]`) against market returns `[0, 0.02, -0.01]` yields
net returns `[0, -0.001, -0.011]`: `trade_cost[t] =
cost_per_trade·|position[t]-position[t-1]|` is charged on the day the
position changes, while the clipped return accrues on the following day
through `position_lag`. -/
theorem C6_cost_amended :
    netReturns [0, 2/100, -1/100] [0, 1, 0] = [0, -1/1000, -11/1000] := by
  norm_num [netReturns, simulateWithLag, positionChange, clip, stop_loss, take_profit,
    cost_per_trade]

/-! ## Claim C2 -/

theorem cumprodFrom_take (l : List ℚ) (a : ℚ) (n : ℕ) :
    (cumprodFrom a l).take n = cumprodFrom a (l.take n) := by
  induction l generalizing a n with
  | nil => simp [cumprodFrom]
  | cons x xs ih =>
    cases n with
    | zero => simp [cumprodFrom]
    | succ m =>
      simp only [cumprodFrom, List.take_succ_cons]
      exact congrArg _ (ih _ m)

theorem take_cons_take (x : ℚ) (l : List ℚ) (n : ℕ) :
    (x :: l).take n = (x :: l.take n).take n := by
  cases n with
  | zero => rfl
  | succ m =>
    simp only [List.take_succ_cons, List.take_take]
    rw [min_eq_left (Nat.le_succ m)]

theorem positionChange_take (pos : List ℚ) (n : ℕ) :
    (positionChange pos).take n = (positionChange (pos.take n)).take n := by
  cases pos with
  | nil => simp [positionChange]
  | cons x xs =>
    cases n with
    | zero => simp
    | succ m =>
      simp only [positionChange, List.take_succ_cons, List.drop_succ_cons, List.drop_zero]
      congr 1
      rw [List.take_zipWith, List.take_zipWith, List.take_take, min_self, ← take_cons_take]

theorem netReturns_take (rets pos : List ℚ) (n : ℕ) :
    (netReturns rets pos).take n = (netReturns (rets.take n) (pos.take n)).take n := by
  simp only [netReturns, simulateWithLag]
  rw [List.take_zipWith, List.take_zipWith]
  congr 1
  · rw [← List.map_take, ← List.map_take]
    congr 1
    rw [List.take_zipWith, List.take_zipWith, List.take_take, min_self, ← take_cons_take]
  · rw [← List.map_take, ← List.map_take]
    exact congrArg _ (positionChange_take pos n)

theorem equityOfNet_take (net : List ℚ) (n : ℕ) :
    (equityOfNet net).take n = (equityOfNet (net.take n)).take n := by
  simp only [equityOfNet, cumprod]
  rw [← List.map_take, ← List.map_take, cumprodFrom_take, cumprodFrom_take,
    ← List.map_take, ← List.map_take, List.take_take, min_self]

theorem equityCurve_take (rets pos : List ℚ) (n : ℕ) :
    (equityCurve rets pos).take n = (equityCurve (rets.take n) (pos.take n)).take n := by
  simp only [equityCurve]
  rw [equityOfNet_take, netReturns_take, ← equityOfNet_take]

/-- C2 counterexample: the claim states that `equity[t]` depends only on
`market_return[0..t]` and `position[0..t-1]`.  Two simulation runs with
identical returns `[0, 0]` and identical `position[0..0] = [0]` but
different `position[1]` produce different `equity[1]`, because
`trade_cost[t]` is charged from `position[t]` itself
(`position.diff()`, line 94). -/
theorem C2_counterexample :
    (([0, 0] : List ℚ) = [0, 0]) ∧
    (([0, 0] : List ℚ).take 1 = ([0, 1] : List ℚ).take 1) ∧
    (equityCurve [0, 0] [0, 0])[1]? ≠ (equityCurve [0, 0] [0, 1])[1]? := by
  refine ⟨rfl, by norm_num, ?_⟩
  norm_num [equityCurve, equityOfNet, netReturns, simulateWithLag, positionChange, clip,
    stop_loss, take_profit, cost_per_trade, cumprod, cumprodFrom, initial_capital]

/-- C2 amended: `equity[t]` of the simulation depends only on
`market_return[0..t]` and `position[0..t]` (the trade cost at `t` reads
`position[t]`): two runs agreeing on both prefixes up to `t` have the
same `equity[t]`; in particular mutating `return[t+1..]` while keeping
`return[0..t]` and the positions fixed does not change `equity[t]`. -/
theorem C2_no_lookahead (r1 p1 r2 p2 : List ℚ) (t : ℕ)
    (hr : r1.take (t + 1) = r2.take (t + 1)) (hp : p1.take (t + 1) = p2.take (t + 1)) :
    (equityCurve r1 p1)[t]? = (equityCurve r2 p2)[t]? := by
  have h1 : (equityCurve r1 p1).take (t + 1) = (equityCurve r2 p2).take (t + 1) := by
    rw [equityCurve_take r1 p1 (t + 1), equityCurve_take r2 p2 (t + 1), hr, hp]
  calc (equityCurve r1 p1)[t]? = ((equityCurve r1 p1).take (t + 1))[t]? :=
        (List.getElem?_take_of_lt (Nat.lt_succ_self t)).symm
    _ = ((equityCurve r2 p2).take (t + 1))[t]? := by rw [h1]
    _ = (equityCurve r2 p2)[t]? := List.getElem?_take_of_lt (Nat.lt_succ_self t)

/-- Witness for C2 amended: the two runs share `return[0]` and the
positions but have different `return[1..]`, and `equity[0]` agrees. -/
theorem C2_no_lookahead_witness :
    (([1/100, 5] : List ℚ).take 1 = ([1/100, -7] : List ℚ).take 1) ∧
    (([1, 1] : List ℚ).take 1 = ([1, 1] : List ℚ).take 1) ∧
    (equityCurve [1/100, 5] [1, 1])[0]? = (equityCurve [1/100, -7] [1, 1])[0]? := by
  exact ⟨by norm_num, rfl, C2_no_lookahead _ _ _ _ 0 (by norm_num) rfl⟩

/-! ## Claim C3 -/

/-- C3 counterexample: the claim states the signal computation fails with
`InvalidParams` exactly when `window ≤ 0`, `z_entry ≤ 0`, or
`z_exit ≥ z_entry`.  With `z_entry = 0 ≤ 0` (window and `z_exit` fine)
the code performs no parameter validation and runs successfully. -/
theorem C3_counterexample :
    ((0 : ℚ) ≤ 0) ∧
    (backtest_mean_reversion [1, 2] [0, 1] [1, 1] [none, none] 10 0 (-1) false true).isOk
      = true := by
  refine ⟨le_refl 0, ?_⟩
  norm_num [backtest_mean_reversion, ewmChecked, Except.isOk, Except.toBool, bind,
    Except.bind, pure, Except.pure]

/-- C3 amended: the strategy function performs no parameter validation;
the only exception it can raise comes from `ewm(span=window)`, which
pandas rejects exactly when `window < 1` — `z_entry ≤ 0` and
`z_exit ≥ z_entry` run without error.  The grid loop catches any
per-point exception and continues, so a failing grid point is skipped
and is never fatal to the sweep. -/
theorem C3_amended :
    (∀ (closes rets std : List ℚ) (vol : List (Option ℚ)) (window : ℤ)
        (z_entry z_exit : ℚ) (dyn fv : Bool),
        (backtest_mean_reversion closes rets std vol window z_entry z_exit dyn fv).isOk = true
          ↔ 1 ≤ window) ∧
    (∀ (closes rets std : List ℚ) (vol : List (Option ℚ)) (g1 g2 : List (ℤ × ℚ × ℚ))
        (p : ℤ × ℚ × ℚ), p.1 < 1 →
        runGrid closes rets std vol (g1 ++ p :: g2) = runGrid closes rets std vol (g1 ++ g2)) := by
  constructor
  · intro closes rets std vol window ze zx dyn fv
    by_cases hw : window < 1
    · have hrun : backtest_mean_reversion closes rets std vol window ze zx dyn fv
          = Except.error "span must satisfy: span >= 1" := by
        simp [backtest_mean_reversion, ewmChecked, if_pos hw, bind, Except.bind]
      rw [hrun]
      simp only [Except.isOk, Except.toBool]
      constructor
      · intro h; exact absurd h (by simp)
      · intro h; omega
    · have hrun : backtest_mean_reversion closes rets std vol window ze zx dyn fv
          = Except.ok (equityCurve rets
              (if dyn = true then
                dynamicPositions ze (zPipeline closes (ewmMean closes window) std vol fv)
                  (positionsPipeline closes (ewmMean closes window) std vol fv ze zx)
              else positionsPipeline closes (ewmMean closes window) std vol fv ze zx)) := by
        simp [backtest_mean_reversion, ewmChecked, if_neg hw, bind, Except.bind,
          pure, Except.pure]
      rw [hrun]
      simp only [Except.isOk, Except.toBool]
      constructor
      · intro _; omega
      · intro _; trivial
  · intro closes rets std vol g1 g2 p hp
    have hbt : backtest_mean_reversion closes rets std vol p.1 p.2.1 p.2.2 false true
        = Except.error "span must satisfy: span >= 1" := by
      simp [backtest_mean_reversion, ewmChecked, if_pos hp, bind, Except.bind]
    simp [runGrid, List.filterMap_append, List.filterMap_cons, hbt]

/-- Witness for C3 amended: a concrete valid run succeeds, and a grid
containing the invalid point `window = 0` yields the same sweep as the
grid without it. -/
theorem C3_amended_witness :
    (((backtest_mean_reversion [1] [0] [1] [none] 10 1 (1/2) false true).isOk = true)
      ↔ (1 : ℤ) ≤ 10) ∧
    ((0 : ℤ) < 1) ∧
    runGrid [1] [0] [1] [none] ([((10 : ℤ), (1 : ℚ), (1/2 : ℚ))] ++ ((0 : ℤ), (1 : ℚ), (1/2 : ℚ)) :: []) =
      runGrid [1] [0] [1] [none] ([((10 : ℤ), (1 : ℚ), (1/2 : ℚ))] ++ []) :=
  ⟨C3_amended.1 [1] [0] [1] [none] 10 1 (1/2) false true, by norm_num,
   C3_amended.2 [1] [0] [1] [none] [((10 : ℤ), (1 : ℚ), (1/2 : ℚ))] []
     ((0 : ℤ), (1 : ℚ), (1/2 : ℚ)) (by norm_num)⟩

/-! ## Claim C7 -/

theorem getElem?_zipWith_some {α β γ : Type} (f : α → β → γ) (a : List α) (b : List β)
    (t : ℕ) (x : α) (y : β) (hx : a[t]? = some x) (hy : b[t]? = some y) :
    (List.zipWith f a b)[t]? = some (f x y) := by
  induction a generalizing b t with
  | nil => simp at hx
  | cons a0 as ih =>
    cases b with
    | nil => simp at hy
    | cons b0 bs =>
      cases t with
      | zero => simp_all
      | succ n =>
        simp only [List.getElem?_cons_succ] at hx hy
        simpa using ih bs n hx hy

theorem getElem?_zipWith₃_some (f : ℚ → ℚ → ℚ → ℚ) (a b d : List ℚ)
    (t : ℕ) (x y z : ℚ) (hx : a[t]? = some x) (hy : b[t]? = some y)
    (hz : d[t]? = some z) :
    (List.zipWith₃ f a b d)[t]? = some (f x y z) := by
  induction a generalizing b d t with
  | nil => simp at hx
  | cons a0 as ih =>
    cases b with
    | nil => simp at hy
    | cons b0 bs =>
      cases d with
      | nil => simp at hz
      | cons d0 ds =>
        cases t with
        | zero => simp_all [List.zipWith₃]
        | succ n =>
          simp only [List.getElem?_cons_succ] at hx hy hz
          simpa [List.zipWith₃] using ih bs ds n hx hy hz

theorem volFilter_zero (vol : List (Option ℚ)) (z : List ℚ) (t : ℕ)
    (hz : z[t]? = some 0) (hv : t < vol.length) :
    (applyVolFilter vol z)[t]? = some 0 := by
  unfold applyVolFilter
  cases hq : quantile09 (vol.filterMap id) with
  | none => exact hz
  | some th =>
    have hvv : vol[t]? = some vol[t] := List.getElem?_eq_getElem hv
    rw [getElem?_zipWith_some _ vol z t vol[t] 0 hvv hz]
    cases vol[t] with
    | none => rfl
    | some vv => by_cases h : th < vv <;> simp [h]

theorem signalOf_zero (ze zx : ℚ) (hze : 0 < ze) : signalOf ze zx 0 = 0 := by
  have h1 : ¬((0 : ℚ) < -ze) := by linarith
  have h2 : ¬(ze < (0 : ℚ)) := by linarith
  by_cases h3 : |(0 : ℚ)| < zx <;> simp [signalOf, h1, h2, h3]

theorem signals_getElem_zero (ze zx : ℚ) (z : List ℚ) (t : ℕ) (hze : 0 < ze)
    (hz : z[t]? = some 0) : (signals ze zx z)[t]? = some 0 := by
  simp [signals, List.getElem?_map, hz, signalOf_zero ze zx hze]

theorem ffill_head_zero (sigs : List ℚ) (acc : ℚ) (h : sigs[0]? = some 0) :
    (ffillNonzero sigs acc)[0]? = some acc := by
  cases sigs with
  | nil => simp at h
  | cons s rest =>
    simp only [List.getElem?_cons_zero, Option.some.injEq] at h
    simp [ffillNonzero, h]

theorem ffill_stable (sigs : List ℚ) (acc : ℚ) (t : ℕ) (h : sigs[t + 1]? = some 0) :
    (ffillNonzero sigs acc)[t + 1]? = (ffillNonzero sigs acc)[t]? := by
  induction sigs generalizing acc t with
  | nil => simp at h
  | cons s rest ih =>
    simp only [List.getElem?_cons_succ] at h
    cases t with
    | zero =>
      simp only [ffillNonzero, List.getElem?_cons_succ, List.getElem?_cons_zero]
      exact ffill_head_zero rest _ h
    | succ m =>
      simp only [ffillNonzero, List.getElem?_cons_succ]
      exact ih _ m h

/-- C7: on any day `t` where the rolling `std` is `0`, the z-score of
the pipeline is defined as `0` (the `np.where` guard, not an error),
and such a day cannot open a new position unless one is already open:
`position[0] = 0` when `t = 0`, and otherwise
`position[t] = position[t-1]`.  Holds with or without the volatility
filter, for any valid `z_entry > 0`. -/
theorem C7_std_zero (closes mean std : List ℚ) (vol : List (Option ℚ)) (fv : Bool)
    (ze zx : ℚ) (t : ℕ) (hze : 0 < ze) (hstd : std[t]? = some 0)
    (hc : t < closes.length) (hm : t < mean.length) (hv : t < vol.length) :
    (zPipeline closes mean std vol fv)[t]? = some 0 ∧
    (positionsPipeline closes mean std vol fv ze zx)[t]? =
      (if t = 0 then some 0
       else (positionsPipeline closes mean std vol fv ze zx)[t - 1]?) := by
  have hcv : closes[t]? = some closes[t] := List.getElem?_eq_getElem hc
  have hmv : mean[t]? = some mean[t] := List.getElem?_eq_getElem hm
  have hraw : (zscores closes mean std)[t]? = some 0 := by
    rw [zscores, getElem?_zipWith₃_some zscoreOf closes mean std t _ _ _ hcv hmv hstd]
    simp [zscoreOf]
  have hz : (zPipeline closes mean std vol fv)[t]? = some 0 := by
    cases fv with
    | false => simpa [zPipeline] using hraw
    | true =>
      simp only [zPipeline, if_pos rfl]
      exact volFilter_zero vol _ t hraw hv
  refine ⟨hz, ?_⟩
  have hsig : (signals ze zx (zPipeline closes mean std vol fv))[t]? = some 0 :=
    signals_getElem_zero ze zx _ t hze hz
  cases t with
  | zero =>
    simp only [if_pos rfl]
    exact ffill_head_zero _ 0 hsig
  | succ m =>
    simp only [Nat.succ_ne_zero, if_neg, Nat.add_sub_cancel]
    exact ffill_stable _ 0 m hsig

/-- Witness for C7 at `std = [1, 0]`, day `t = 1`, with the volatility
filter on. -/
theorem C7_std_zero_witness :
    ((0 : ℚ) < 1) ∧ (([1, 0] : List ℚ)[1]? = some 0) ∧
    ((zPipeline [1, 1] [1, 1] [1, 0] [none, none] true)[1]? = some 0 ∧
     (positionsPipeline [1, 1] [1, 1] [1, 0] [none, none] true 1 (1/2))[1]? =
       (if (1 : ℕ) = 0 then some 0
        else (positionsPipeline [1, 1] [1, 1] [1, 0] [none, none] true 1 (1/2))[1 - 1]?)) := by
  refine ⟨by norm_num, by norm_num, ?_⟩
  exact C7_std_zero [1, 1] [1, 1] [1, 0] [none, none] true 1 (1/2) 1
    (by norm_num) (by norm_num) (by norm_num) (by norm_num) (by norm_num)

/-! ## Claim C9 -/

theorem signalOf_mem (ze zx z : ℚ) :
    signalOf ze zx z = -1 ∨ signalOf ze zx z = 0 ∨ signalOf ze zx z = 1 := by
  unfold signalOf
  split_ifs <;> simp

theorem ffill_mem (P : ℚ → Prop) (sigs : List ℚ) (acc : ℚ)
    (hs : ∀ s ∈ sigs, P s) (ha : P acc) :
    ∀ p ∈ ffillNonzero sigs acc, P p := by
  induction sigs generalizing acc with
  | nil => simp [ffillNonzero]
  | cons s rest ih =>
    have hnext : P (if s = 0 then acc else s) := by
      by_cases h : s = 0
      · simpa [h] using ha
      · simpa [h] using hs s (by simp)
    intro p hp
    simp only [ffillNonzero, List.mem_cons] at hp
    rcases hp with rfl | hp
    · exact hnext
    · exact ih _ (fun q hq => hs q (by simp [hq])) hnext p hp

theorem abs_clip_le_one (x : ℚ) : |clip x (-1) 1| ≤ 1 := by
  rw [abs_le]
  exact ⟨le_min (le_max_right x (-1)) (by norm_num), min_le_right _ _⟩

theorem sign_abs_le_one (q : ℚ) : |sign q| ≤ 1 := by
  unfold sign
  split_ifs <;> norm_num

theorem dynamic_mem_bounds (ze : ℚ) (z pos : List ℚ) :
    ∀ p ∈ dynamicPositions ze z pos, -1 ≤ p ∧ p ≤ 1 := by
  unfold dynamicPositions
  induction z generalizing pos with
  | nil => simp
  | cons zv zs ih =>
    cases pos with
    | nil => simp
    | cons pv ps =>
      intro p hp
      simp only [List.zipWith_cons_cons, List.mem_cons] at hp
      rcases hp with rfl | hp
      · have h1 : |sign pv| ≤ 1 := sign_abs_le_one pv
        have h2 : |clip (-zv / ze) (-1) 1| ≤ 1 := abs_clip_le_one _
        have h3 : abs (sign pv * |clip (-zv / ze) (-1) 1|) ≤ 1 := by
          rw [abs_mul, abs_abs]
          calc |sign pv| * |clip (-zv / ze) (-1) 1| ≤ 1 * 1 :=
                mul_le_mul h1 h2 (abs_nonneg _) zero_le_one
            _ = 1 := one_mul 1
        exact abs_le.mp h3
      · exact ih ps p hp

/-- C9: for any z-score series and valid params (`z_entry > 0`), every
raw signal lies in `{-1, 0, 1}`, every discrete (non-dynamic) position
lies in `{-1, 0, 1}`, and every dynamic position is clamped into
`[-1, 1]`. -/
theorem C9_position_bounds (z : List ℚ) (ze zx : ℚ) (hze : 0 < ze) :
    (∀ s ∈ signals ze zx z, s = -1 ∨ s = 0 ∨ s = 1) ∧
    (∀ p ∈ positionsOf (signals ze zx z), p = -1 ∨ p = 0 ∨ p = 1) ∧
    (∀ p ∈ dynamicPositions ze z (positionsOf (signals ze zx z)), -1 ≤ p ∧ p ≤ 1) := by
  have hsig : ∀ s ∈ signals ze zx z, s = -1 ∨ s = 0 ∨ s = 1 := by
    intro s hs
    simp only [signals, List.mem_map] at hs
    obtain ⟨zv, _, rfl⟩ := hs
    exact signalOf_mem ze zx zv
  exact ⟨hsig,
    ffill_mem (fun x => x = -1 ∨ x = 0 ∨ x = 1) _ 0 hsig (Or.inr (Or.inl rfl)),
    dynamic_mem_bounds ze z _⟩

/-- Witness for C9 at the z-score series `[-2, 0, 3]` with
`z_entry = 1`, `z_exit = 1/2`. -/
theorem C9_position_bounds_witness :
    ((0 : ℚ) < 1) ∧
    ((∀ s ∈ signals 1 (1/2) [-2, 0, 3], s = -1 ∨ s = 0 ∨ s = 1) ∧
     (∀ p ∈ positionsOf (signals 1 (1/2) [-2, 0, 3]), p = -1 ∨ p = 0 ∨ p = 1) ∧
     (∀ p ∈ dynamicPositions 1 [-2, 0, 3] (positionsOf (signals 1 (1/2) [-2, 0, 3])),
        -1 ≤ p ∧ p ≤ 1)) :=
  ⟨by norm_num, C9_position_bounds [-2, 0, 3] 1 (1/2) (by norm_num)⟩

/-! ## Claim C8 -/

theorem logStep_prevPos (s : LogState) (row : ℚ × ℚ × ℤ) :
    (logStep s row).prevPos = row.1 := by
  unfold logStep
  split_ifs <;> rfl

theorem logStep_inPosition (s : LogState) (row : ℚ × ℚ × ℤ) :
    (logStep s row).inPosition = true ↔ row.1 ≠ 0 := by
  unfold logStep
  by_cases hb1 : s.inPosition = false ∧ row.1 ≠ 0
  · rw [if_pos hb1]
    simpa using hb1.2
  · rw [if_neg hb1]
    by_cases hb2 : s.inPosition = true ∧ (row.1 = 0 ∨ sign row.1 ≠ sign s.prevPos)
    · rw [if_pos hb2]
      by_cases hb3 : row.1 ≠ 0
      · rw [if_pos hb3]
        simpa using hb3
      · rw [if_neg hb3]
        simpa using hb3
    · rw [if_neg hb2]
      cases hsp : s.inPosition with
      | false =>
        have hz : ¬row.1 ≠ 0 := fun hne => hb1 ⟨hsp, hne⟩
        simp [hsp, hz]
      | true =>
        have hnz : row.1 ≠ 0 := fun hz => hb2 ⟨hsp, Or.inl hz⟩
        simp [hsp, hnz]

theorem sign_pos_iff_of_eq (a b : ℚ) (hsgn : sign a = sign b) :
    0 < a ↔ 0 < b := by
  unfold sign at hsgn
  split_ifs at hsgn <;> first
    | exact iff_of_true (by assumption) (by assumption)
    | exact iff_of_false (by assumption) (by assumption)
    | norm_num at hsgn

theorem logStep_sideInv (s : LogState) (row : ℚ × ℚ × ℤ) (h : SideInv s) :
    SideInv (logStep s row) := by
  unfold logStep SideInv
  by_cases hb1 : s.inPosition = false ∧ row.1 ≠ 0
  · rw [if_pos hb1]
    intro _
    by_cases hp : 0 < row.1 <;> simp [hp]
  · rw [if_neg hb1]
    by_cases hb2 : s.inPosition = true ∧ (row.1 = 0 ∨ sign row.1 ≠ sign s.prevPos)
    · rw [if_pos hb2]
      by_cases hb3 : row.1 ≠ 0
      · rw [if_pos hb3]
        intro _
        by_cases hp : 0 < row.1 <;> simp [hp]
      · rw [if_neg hb3]
        intro hcontra
        simp at hcontra
    · rw [if_neg hb2]
      intro hin
      have hin' : s.inPosition = true := hin
      have hsgn : sign row.1 = sign s.prevPos :=
        not_not.mp (fun hne => hb2 ⟨hin', Or.inr hne⟩)
      have hiff := h hin'
      have hpp := sign_pos_iff_of_eq row.1 s.prevPos hsgn
      exact hiff.trans hpp.symm

theorem foldl_sideInv (rows : List (ℚ × ℚ × ℤ)) (s : LogState) (h : SideInv s) :
    SideInv (rows.foldl logStep s) := by
  induction rows generalizing s with
  | nil => exact h
  | cons r rest ih => exact ih _ (logStep_sideInv s r h)

theorem logRun_append_one (rows : List (ℚ × ℚ × ℤ)) (row : ℚ × ℚ × ℤ) :
    logRun (rows ++ [row]) = logStep (logRun rows) row := by
  simp [logRun, List.foldl_append]

/-- C8: when the position's sign reverses between adjacent rows without
passing through `0`, the loop closes the current trade at that day's
close (exit price and date are the reversal day's) and immediately
re-opens a position of the opposite side on the same day at the same
price, so the new `entry_price` equals the old `exit_price` and the old
`exit_date` equals the new `entry_date`. -/
theorem C8_reversal (pre : List (ℚ × ℚ × ℤ)) (p1 p2 pr1 pr2 : ℚ) (d1 d2 : ℤ)
    (h1 : p1 ≠ 0) (h2 : p2 ≠ 0) (hs : sign p1 ≠ sign p2) :
    (logRun (pre ++ [(p1, pr1, d1), (p2, pr2, d2)])).trades
        = (logRun (pre ++ [(p1, pr1, d1)])).trades
          ++ [mkTrade (logRun (pre ++ [(p1, pr1, d1)])) pr2 d2] ∧
    (mkTrade (logRun (pre ++ [(p1, pr1, d1)])) pr2 d2).exitPrice = pr2 ∧
    (mkTrade (logRun (pre ++ [(p1, pr1, d1)])) pr2 d2).exitDate = d2 ∧
    (logRun (pre ++ [(p1, pr1, d1), (p2, pr2, d2)])).inPosition = true ∧
    (logRun (pre ++ [(p1, pr1, d1), (p2, pr2, d2)])).entryPrice = pr2 ∧
    (logRun (pre ++ [(p1, pr1, d1), (p2, pr2, d2)])).entryDate = d2 ∧
    (mkTrade (logRun (pre ++ [(p1, pr1, d1)])) pr2 d2).side
      ≠ (logRun (pre ++ [(p1, pr1, d1), (p2, pr2, d2)])).posType := by
  have hsplit : logRun (pre ++ [(p1, pr1, d1), (p2, pr2, d2)])
      = logStep (logRun (pre ++ [(p1, pr1, d1)])) (p2, pr2, d2) := by
    rw [show pre ++ [(p1, pr1, d1), (p2, pr2, d2)]
        = (pre ++ [(p1, pr1, d1)]) ++ [(p2, pr2, d2)] by simp]
    exact logRun_append_one _ _
  have hin : (logRun (pre ++ [(p1, pr1, d1)])).inPosition = true := by
    rw [logRun_append_one]
    exact (logStep_inPosition _ _).mpr h1
  have hprev : (logRun (pre ++ [(p1, pr1, d1)])).prevPos = p1 := by
    rw [logRun_append_one]
    exact logStep_prevPos _ _
  have hside : SideInv (logRun (pre ++ [(p1, pr1, d1)])) :=
    foldl_sideInv _ initLogState (by simp [SideInv, initLogState])
  have hcond1 : ¬((logRun (pre ++ [(p1, pr1, d1)])).inPosition = false ∧ (p2 : ℚ) ≠ 0) := by
    simp [hin]
  have hcond2 : (logRun (pre ++ [(p1, pr1, d1)])).inPosition = true ∧
      ((p2 : ℚ) = 0 ∨ sign p2 ≠ sign (logRun (pre ++ [(p1, pr1, d1)])).prevPos) :=
    ⟨hin, Or.inr (by rw [hprev]; exact fun hh => hs hh.symm)⟩
  have hstep : logStep (logRun (pre ++ [(p1, pr1, d1)])) (p2, pr2, d2)
      = { trades := (logRun (pre ++ [(p1, pr1, d1)])).trades
            ++ [mkTrade (logRun (pre ++ [(p1, pr1, d1)])) pr2 d2],
          inPosition := true, entryPrice := pr2, entryDate := d2,
          posType := if 0 < p2 then Side.long else Side.short, prevPos := p2 } := by
    unfold logStep
    rw [if_neg hcond1, if_pos hcond2, if_pos h2]
  rw [hsplit, hstep]
  refine ⟨rfl, rfl, rfl, rfl, rfl, rfl, ?_⟩
  have hmk : (mkTrade (logRun (pre ++ [(p1, pr1, d1)])) pr2 d2).side
      = (logRun (pre ++ [(p1, pr1, d1)])).posType := rfl
  rw [hmk]
  have hiff := hside hin
  rw [hprev] at hiff
  by_cases hp2 : 0 < p2
  · simp only [if_pos hp2]
    intro hcontra
    have hp1 : 0 < p1 := hiff.mp hcontra
    apply hs
    unfold sign
    rw [if_pos hp1, if_pos hp2]
  · simp only [if_neg hp2]
    intro hcontra
    have hnl : (logRun (pre ++ [(p1, pr1, d1)])).posType ≠ Side.long := by
      rw [hcontra]
      simp
    have hnp1 : ¬0 < p1 := fun hh => hnl (hiff.mpr hh)
    have hp1n : p1 < 0 := lt_of_le_of_ne (not_lt.mp hnp1) h1
    have hp2n : p2 < 0 := lt_of_le_of_ne (not_lt.mp hp2) h2
    apply hs
    unfold sign
    rw [if_neg (not_lt.mpr hp1n.le), if_pos hp1n, if_neg (not_lt.mpr hp2n.le), if_pos hp2n]

/-- Witness for C8: a long position entered at price 10 on day 0
reverses to short at price 12 on day 3. -/
theorem C8_reversal_witness :
    ((1 : ℚ) ≠ 0) ∧ ((-1 : ℚ) ≠ 0) ∧ (sign 1 ≠ sign (-1)) ∧
    ((logRun ([] ++ [((1 : ℚ), (10 : ℚ), (0 : ℤ)), ((-1 : ℚ), (12 : ℚ), (3 : ℤ))])).trades
        = (logRun ([] ++ [((1 : ℚ), (10 : ℚ), (0 : ℤ))])).trades
          ++ [mkTrade (logRun ([] ++ [((1 : ℚ), (10 : ℚ), (0 : ℤ))])) 12 3] ∧
     (mkTrade (logRun ([] ++ [((1 : ℚ), (10 : ℚ), (0 : ℤ))])) 12 3).exitPrice = 12 ∧
     (mkTrade (logRun ([] ++ [((1 : ℚ), (10 : ℚ), (0 : ℤ))])) 12 3).exitDate = 3 ∧
     (logRun ([] ++ [((1 : ℚ), (10 : ℚ), (0 : ℤ)), ((-1 : ℚ), (12 : ℚ), (3 : ℤ))])).inPosition = true ∧
     (logRun ([] ++ [((1 : ℚ), (10 : ℚ), (0 : ℤ)), ((-1 : ℚ), (12 : ℚ), (3 : ℤ))])).entryPrice = 12 ∧
     (logRun ([] ++ [((1 : ℚ), (10 : ℚ), (0 : ℤ)), ((-1 : ℚ), (12 : ℚ), (3 : ℤ))])).entryDate = 3 ∧
     (mkTrade (logRun ([] ++ [((1 : ℚ), (10 : ℚ), (0 : ℤ))])) 12 3).side
       ≠ (logRun ([] ++ [((1 : ℚ), (10 : ℚ), (0 : ℤ)), ((-1 : ℚ), (12 : ℚ), (3 : ℤ))])).posType) := by
  have hsgn : sign (1 : ℚ) ≠ sign (-1 : ℚ) := by norm_num [sign]
  exact ⟨by norm_num, by norm_num, hsgn,
    C8_reversal [] 1 (-1) 10 12 0 3 (by norm_num) (by norm_num) hsgn⟩

/-! ## Claim C10 -/

theorem tradesInv_step (lb : ℤ) (s : LogState) (row : ℚ × ℚ × ℤ)
    (h : TradesInv lb s) (hd : lb < dateOf row) :
    TradesInv (dateOf row) (logStep s row) := by
  obtain ⟨hED, hCh, hExit, hOpen⟩ := h
  unfold logStep
  by_cases hb1 : s.inPosition = false ∧ row.1 ≠ 0
  · rw [if_pos hb1]
    exact ⟨hED, hCh, fun t ht => le_trans (hExit t ht) hd.le,
      fun _ => ⟨le_refl _, fun t ht => le_trans (hExit t ht) hd.le⟩⟩
  · rw [if_neg hb1]
    by_cases hb2 : s.inPosition = true ∧ (row.1 = 0 ∨ sign row.1 ≠ sign s.prevPos)
    · rw [if_pos hb2]
      obtain ⟨hEntryLb, hAll⟩ := hOpen hb2.1
      have hmkED : ∀ t ∈ s.trades ++ [mkTrade s row.2.1 row.2.2],
          t.entryDate < t.exitDate := by
        intro t ht
        rcases List.mem_append.mp ht with hmem | hmem
        · exact hED t hmem
        · simp only [List.mem_singleton] at hmem
          subst hmem
          exact lt_of_le_of_lt hEntryLb hd
      have hmkCh : List.Chain' (fun a b => a.exitDate ≤ b.entryDate)
          (s.trades ++ [mkTrade s row.2.1 row.2.2]) := by
        rw [List.chain'_append]
        refine ⟨hCh, List.chain'_singleton _, ?_⟩
        intro x hx y hy
        simp only [List.head?_cons, Option.mem_def, Option.some.injEq] at hy
        subst hy
        obtain ⟨hne, hxl⟩ := List.mem_getLast?_eq_getLast hx
        exact hxl ▸ hAll _ (hxl ▸ List.getLast_mem hne)
      have hmkExit : ∀ t ∈ s.trades ++ [mkTrade s row.2.1 row.2.2],
          t.exitDate ≤ dateOf row := by
        intro t ht
        rcases List.mem_append.mp ht with hmem | hmem
        · exact le_trans (hExit t hmem) hd.le
        · simp only [List.mem_singleton] at hmem
          subst hmem
          exact le_refl _
      by_cases hb3 : row.1 ≠ 0
      · rw [if_pos hb3]
        exact ⟨hmkED, hmkCh, hmkExit, fun _ => ⟨le_refl _, hmkExit⟩⟩
      · rw [if_neg hb3]
        exact ⟨hmkED, hmkCh, hmkExit, fun hcontra => by simp at hcontra⟩
    · rw [if_neg hb2]
      refine ⟨hED, hCh, fun t ht => le_trans (hExit t ht) hd.le, fun hin => ?_⟩
      obtain ⟨h1, h2⟩ := hOpen hin
      exact ⟨le_trans h1 hd.le, h2⟩

theorem tradesInv_fold (rows : List (ℚ × ℚ × ℤ)) (s : LogState) (lb : ℤ)
    (h : TradesInv lb s)
    (hch : List.Chain' (fun a b => dateOf a < dateOf b) rows)
    (hhd : ∀ r ∈ rows.head?, lb < dateOf r) :
    ∃ lb2, TradesInv lb2 (rows.foldl logStep s) := by
  induction rows generalizing s lb with
  | nil => exact ⟨lb, h⟩
  | cons r rest ih =>
    have hlt : lb < dateOf r := hhd r (by simp)
    have hstep : TradesInv (dateOf r) (logStep s r) := tradesInv_step lb s r h hlt
    obtain ⟨hhead, hrest⟩ := List.chain'_cons'.mp hch
    exact ih (logStep s r) (dateOf r) hstep hrest hhead

/-- C10: when the row dates are strictly increasing, every trade in the
reconstructed ledger has `entry_date` strictly before `exit_date`, and
the ledger is chronologically ordered and non-overlapping: each trade's
`exit_date` is at or before the next trade's `entry_date`. -/
theorem C10_ledger_invariants (rows : List (ℚ × ℚ × ℤ))
    (hdates : List.Chain' (fun a b => dateOf a < dateOf b) rows) :
    (∀ t ∈ tradeLog rows, t.entryDate < t.exitDate) ∧
    List.Chain' (fun a b => a.exitDate ≤ b.entryDate) (tradeLog rows) := by
  cases rows with
  | nil => simp [tradeLog, logRun, initLogState]
  | cons r rest =>
    have h0 : TradesInv (dateOf r - 1) initLogState := by
      refine ⟨?_, ?_, ?_, ?_⟩ <;> simp [initLogState]
    obtain ⟨lb2, hinv⟩ := tradesInv_fold (r :: rest) initLogState (dateOf r - 1) h0 hdates
      (by
        intro x hx
        simp only [List.head?_cons, Option.mem_def, Option.some.injEq] at hx
        subst hx
        omega)
    exact ⟨hinv.1, hinv.2.1⟩

/-- Witness for C10 on a concrete long-then-flat-then-short series with
strictly increasing dates. -/
theorem C10_ledger_invariants_witness :
    List.Chain' (fun a b => dateOf a < dateOf b)
      [((1 : ℚ), (10 : ℚ), (0 : ℤ)), ((0 : ℚ), (11 : ℚ), (2 : ℤ)),
       ((-1 : ℚ), (9 : ℚ), (5 : ℤ)), ((0 : ℚ), (8 : ℚ), (9 : ℤ))] ∧
    ((∀ t ∈ tradeLog [((1 : ℚ), (10 : ℚ), (0 : ℤ)), ((0 : ℚ), (11 : ℚ), (2 : ℤ)),
          ((-1 : ℚ), (9 : ℚ), (5 : ℤ)), ((0 : ℚ), (8 : ℚ), (9 : ℤ))],
        t.entryDate < t.exitDate) ∧
     List.Chain' (fun a b => a.exitDate ≤ b.entryDate)
       (tradeLog [((1 : ℚ), (10 : ℚ), (0 : ℤ)), ((0 : ℚ), (11 : ℚ), (2 : ℤ)),
          ((-1 : ℚ), (9 : ℚ), (5 : ℤ)), ((0 : ℚ), (8 : ℚ), (9 : ℤ))])) := by
  have hch : List.Chain' (fun a b => dateOf a < dateOf b)
      [((1 : ℚ), (10 : ℚ), (0 : ℤ)), ((0 : ℚ), (11 : ℚ), (2 : ℤ)),
       ((-1 : ℚ), (9 : ℚ), (5 : ℤ)), ((0 : ℚ), (8 : ℚ), (9 : ℤ))] := by
    simp [List.chain'_cons, dateOf]
  exact ⟨hch, C10_ledger_invariants _ hch⟩

end MRS
